import Mathlib

/-
Verification of the geo-brand-mention-tracker frontend core.

This file gives a shallow embedding of the data model and the dashboard
computations of the repository (Next.js frontend: the queries page, the
overview page, the competitors page, the API client and the CSV export
helpers) and proves the behavioural properties stated about them.

Embedding conventions:
  - calendar dates and timestamps are embedded as natural numbers; the code
    compares run_date values through `new Date(s).getTime()` and through
    `localeCompare`, and for the ISO date strings the code handles both
    orders coincide with the numeric order of the embedded values;
  - JavaScript `Array.prototype.sort` is stable (ECMAScript 2019), so sorts
    written with a comparator are embedded as stable insertion sorts;
  - fractional JS numbers are embedded as rationals, `Math.round` as the
    Mathlib `round` (both send x to the floor of x + 1/2);
  - fallible operations (fetch / JSON parse) are embedded as `Except` or as
    explicit outcome types.
-/

namespace GeoTrack

/-- The four engine identifiers, in the order of the ENGINES constant shared
by the queries page and the competitors page. -/
def ENGINES : List String := ["openai", "anthropic", "perplexity", "gemini"]

/-- Embeds the MonitoredQuery interface of the queries page. -/
structure MonitoredQuery where
  id : String
  brand_id : String
  query_text : String
  category : Option String
  is_active : Bool
  created_at : String
deriving Repr, DecidableEq

/-- Embeds the QueryResult interface of the queries page. The run_date field
holds the numeric value of `new Date(run_date).getTime()`; the interface has
no creation-timestamp field. -/
structure QueryResult where
  id : String
  query_id : String
  engine : String
  raw_response : String
  brand_mentioned : Bool
  mention_position : String
  is_top_recommendation : Bool
  sentiment : String
  run_date : Nat
deriving Repr, DecidableEq

/-- One step of a stable insertion sort descending by run_date: the new
record goes in front of every kept record whose run_date is not larger,
which reproduces the output of the stable JS sort with comparator
`(a, b) => dateB - dateA`. -/
def insertByRunDateDesc (r : QueryResult) : List QueryResult → List QueryResult
  | [] => [r]
  | x :: xs =>
    if x.run_date ≤ r.run_date then r :: x :: xs
    else x :: insertByRunDateDesc r xs

/-- Stable sort of results descending by run_date. -/
def sortByRunDateDesc : List QueryResult → List QueryResult
  | [] => []
  | x :: xs => insertByRunDateDesc x (sortByRunDateDesc xs)

/-- The results of one query for one engine, in input order: the queries
page filters `results` to the query id and then to the engine. -/
def matchingResults (results : List QueryResult) (queryId engine : String) :
    List QueryResult :=
  (results.filter (fun r => r.query_id == queryId)).filter
    (fun r => r.engine == engine)

/-- Embeds getLatestByEngine of the queries page: for each of the four
engines, the results of the query for that engine are sorted descending by
`new Date(run_date).getTime()` and the first element is kept; looking up any
other key of the record gives undefined. -/
def getLatestByEngine (results : List QueryResult) (queryId engine : String) :
    Option QueryResult :=
  if engine ∈ ENGINES then
    (sortByRunDateDesc (matchingResults results queryId engine)).head?
  else none

/-- Reference form of the head of the stable descending sort: the first
record in input order whose run_date is at least every later run_date. -/
def firstMaxByRunDate : List QueryResult → Option QueryResult
  | [] => none
  | x :: xs =>
    match firstMaxByRunDate xs with
    | none => some x
    | some y => if y.run_date ≤ x.run_date then some x else some y

theorem firstMaxByRunDate_eq_none_iff (l : List QueryResult) :
    firstMaxByRunDate l = none ↔ l = [] := by
  cases l with
  | nil => simp [firstMaxByRunDate]
  | cons x xs =>
    simp only [firstMaxByRunDate]
    cases h : firstMaxByRunDate xs with
    | none => simp
    | some y =>
      constructor
      · intro hc
        by_cases hle : y.run_date ≤ x.run_date <;> simp [hle] at hc
      · intro hc
        exact absurd hc (by simp)

theorem head_insertByRunDateDesc (r : QueryResult) (s : List QueryResult) :
    (insertByRunDateDesc r s).head? =
      match s.head? with
      | none => some r
      | some y => if y.run_date ≤ r.run_date then some r else some y := by
  cases s with
  | nil => rfl
  | cons y ys =>
    simp only [insertByRunDateDesc, List.head?_cons]
    by_cases h : y.run_date ≤ r.run_date <;> simp [h]

theorem head_sortByRunDateDesc (l : List QueryResult) :
    (sortByRunDateDesc l).head? = firstMaxByRunDate l := by
  induction l with
  | nil => rfl
  | cons x xs ih =>
    simp only [sortByRunDateDesc, firstMaxByRunDate, head_insertByRunDateDesc,
      ← ih]

/-- The selected record sits in the list after a block of records with
strictly smaller run_date, and every record of the list has run_date at most
the selected one: this pins it to the first record in input order attaining
the maximal run_date. -/
theorem firstMaxByRunDate_spec (l : List QueryResult) :
    ∀ r, firstMaxByRunDate l = some r →
      ∃ l₁ l₂, l = l₁ ++ r :: l₂ ∧ (∀ x ∈ l₁, x.run_date < r.run_date) ∧
        ∀ x ∈ l, x.run_date ≤ r.run_date := by
  induction l with
  | nil => intro r h; exact absurd h (by simp [firstMaxByRunDate])
  | cons x xs ih =>
    intro r h
    simp only [firstMaxByRunDate] at h
    cases hx : firstMaxByRunDate xs with
    | none =>
      have hnil : xs = [] := (firstMaxByRunDate_eq_none_iff xs).mp hx
      rw [hx] at h
      obtain rfl : x = r := by simpa using h
      exact ⟨[], xs, by simp, by simp, by
        intro z hz
        rcases List.mem_cons.mp hz with rfl | hz
        · exact le_refl _
        · simp [hnil] at hz⟩
    | some y =>
      rw [hx] at h
      obtain ⟨l₁, l₂, hsplit, hlt, hle⟩ := ih y hx
      by_cases hc : y.run_date ≤ x.run_date
      · obtain rfl : x = r := by simpa [hc] using h
        refine ⟨[], xs, by simp, by simp, ?_⟩
        intro z hz
        rcases List.mem_cons.mp hz with rfl | hz
        · exact le_refl _
        · exact le_trans (hle z hz) hc
      · obtain rfl : y = r := by simpa [hc] using h
        refine ⟨x :: l₁, l₂, by simp [hsplit], ?_, ?_⟩
        · intro z hz
          rcases List.mem_cons.mp hz with rfl | hz
          · exact Nat.lt_of_not_le hc
          · exact hlt z hz
        · intro z hz
          rcases List.mem_cons.mp hz with rfl | hz
          · exact Nat.le_of_lt (Nat.lt_of_not_le hc)
          · exact hle z hz

theorem getLatestByEngine_eq_firstMax (results : List QueryResult)
    (queryId engine : String) (heng : engine ∈ ENGINES) :
    getLatestByEngine results queryId engine =
      firstMaxByRunDate (matchingResults results queryId engine) := by
  simp [getLatestByEngine, heng, head_sortByRunDateDesc]

/-- C1 (amended): for each of the four engines, getLatestByEngine selects,
among the results of the query for that engine, the first record in input
order whose run_date is maximal; run_date alone decides, and two records
sharing the same run_date are ordered by their position in the results
array, not by a creation timestamp (the record carries none). -/
theorem c1_getLatestByEngine_picks_first_run_date_max
    (results : List QueryResult) (queryId engine : String)
    (heng : engine ∈ ENGINES) :
    (matchingResults results queryId engine ≠ [] →
      ∃ r, getLatestByEngine results queryId engine = some r) ∧
    ∀ r, getLatestByEngine results queryId engine = some r →
      ∃ l₁ l₂, matchingResults results queryId engine = l₁ ++ r :: l₂ ∧
        (∀ x ∈ l₁, x.run_date < r.run_date) ∧
        ∀ x ∈ matchingResults results queryId engine,
          x.run_date ≤ r.run_date := by
  rw [getLatestByEngine_eq_firstMax results queryId engine heng]
  constructor
  · intro hne
    cases hfm : firstMaxByRunDate (matchingResults results queryId engine) with
    | none => exact absurd ((firstMaxByRunDate_eq_none_iff _).mp hfm) hne
    | some r => exact ⟨r, rfl⟩
  · intro r hr
    exact firstMaxByRunDate_spec _ r hr

/-- C1 counterexample data: a result that reached the client first in the
results array. Creation timestamps are not part of the frontend record, so
the scenario records them through c1createdAt alongside. -/
def c1resA : QueryResult :=
  { id := "r1", query_id := "q1", engine := "openai", raw_response := "a",
    brand_mentioned := true, mention_position := "first",
    is_top_recommendation := false, sentiment := "positive", run_date := 100 }

/-- C1 counterexample data: a second result of the same query and engine
with the same run_date but the later creation timestamp. -/
def c1resB : QueryResult :=
  { c1resA with id := "r2", raw_response := "b" }

/-- Creation timestamps of the two scenario records: r2 was created after
r1. -/
def c1createdAt : String → Nat := fun i => if i == "r2" then 2 else 1

/-- C1 fails on the code: for two records sharing the same run_date the
selection keeps the one that comes first in the results array, not the one
that is maximal under creation-timestamp order, so creation timestamps do
not break same-day ties. -/
theorem c1_counterexample :
    getLatestByEngine [c1resA, c1resB] "q1" "openai" = some c1resA ∧
    c1resA.run_date = c1resB.run_date ∧
    c1createdAt c1resA.id < c1createdAt c1resB.id ∧
    c1resA ≠ c1resB := by decide

/-- Closed instance of the amended C1 theorem at a concrete input. -/
theorem c1_getLatestByEngine_picks_first_run_date_max_witness :
    ∃ l₁ l₂, matchingResults [c1resA] "q1" "openai" = l₁ ++ c1resA :: l₂ ∧
      (∀ x ∈ l₁, x.run_date < c1resA.run_date) ∧
      ∀ x ∈ matchingResults [c1resA] "q1" "openai",
        x.run_date ≤ c1resA.run_date :=
  (c1_getLatestByEngine_picks_first_run_date_max [c1resA] "q1" "openai"
    (by decide)).2 c1resA (by decide)

/-- Embeds one element of QueryHistoryData.trend on the queries page. The
date field holds the calendar day; the code keys a Map by the date string,
whose equality and localeCompare order agree with the embedded numbers. -/
structure TrendEntry where
  date : Nat
  mentioned : Bool
  engine : String
deriving Repr, DecidableEq

/-- One bucket of the trendMap of ExpandedRow: a calendar day together with
its mentioned count and total count. -/
structure DayCount where
  date : Nat
  mentioned : Nat
  total : Nat
deriving Repr, DecidableEq

/-- One loop iteration of ExpandedRow building trendMap: fetch the existing
bucket of the day (or a fresh zero bucket), bump total, bump mentioned when
the record is a mention, store it back. A JS Map keeps first-insertion key
order, embedded here as an association list updated in place with new days
appended at the end. -/
def bumpDay (d : Nat) (m : Bool) : List DayCount → List DayCount
  | [] => [⟨d, if m then 1 else 0, 1⟩]
  | c :: cs =>
    if c.date = d then
      ⟨c.date, c.mentioned + (if m then 1 else 0), c.total + 1⟩ :: cs
    else c :: bumpDay d m cs

/-- Embeds the trendMap loop of ExpandedRow. -/
def trendMap (trend : List TrendEntry) : List DayCount :=
  trend.foldl (fun acc t => bumpDay t.date t.mentioned acc) []

/-- Stable insertion step ascending by date, matching the JS sort with
comparator `([a], [b]) => a.localeCompare(b)` on the date keys. -/
def insertByDateAsc (c : DayCount) : List DayCount → List DayCount
  | [] => [c]
  | x :: xs =>
    if c.date ≤ x.date then c :: x :: xs else x :: insertByDateAsc c xs

/-- Sort of the day buckets ascending by date. -/
def sortByDateAsc : List DayCount → List DayCount
  | [] => []
  | x :: xs => insertByDateAsc x (sortByDateAsc xs)

/-- Math.round of the percentage (100 * num) / den for den > 0, written on
naturals: the integer nearest to the exact ratio, halves rounded up. -/
def roundPct (num den : Nat) : Nat := (200 * num + den) / (2 * den)

/-- The per-day rate of ExpandedRow:
`vals.total > 0 ? Math.round((vals.mentioned / vals.total) * 100) : 0`. -/
def perDayRate (mentioned total : Nat) : Nat :=
  if 0 < total then roundPct mentioned total else 0

/-- Embeds trendChartData of ExpandedRow: the day buckets sorted ascending
by date, projected to (day, per-day rate) chart points; the label
formatting of the date is presentational and kept as the day itself. -/
def trendChartData (trend : List TrendEntry) : List (Nat × Nat) :=
  (sortByDateAsc (trendMap trend)).map
    (fun c => (c.date, perDayRate c.mentioned c.total))

/-- Number of trend records of a given day. -/
def dayTotal (trend : List TrendEntry) (d : Nat) : Nat :=
  trend.countP (fun t => t.date == d)

/-- Number of mentioned trend records of a given day. -/
def dayMentioned (trend : List TrendEntry) (d : Nat) : Nat :=
  trend.countP (fun t => t.date == d && t.mentioned)

/-- Total count a day holds across an association list of buckets, summed so
the statement needs no uniqueness assumption. -/
def sumTotal (l : List DayCount) (d : Nat) : Nat :=
  (l.map (fun c => if c.date = d then c.total else 0)).sum

/-- Mentioned count a day holds across an association list of buckets. -/
def sumMentioned (l : List DayCount) (d : Nat) : Nat :=
  (l.map (fun c => if c.date = d then c.mentioned else 0)).sum

theorem sumTotal_cons (c : DayCount) (cs : List DayCount) (d : Nat) :
    sumTotal (c :: cs) d =
      (if c.date = d then c.total else 0) + sumTotal cs d := by
  simp [sumTotal]

theorem sumMentioned_cons (c : DayCount) (cs : List DayCount) (d : Nat) :
    sumMentioned (c :: cs) d =
      (if c.date = d then c.mentioned else 0) + sumMentioned cs d := by
  simp [sumMentioned]

theorem sumTotal_bumpDay (d : Nat) (m : Bool) (acc : List DayCount)
    (d' : Nat) :
    sumTotal (bumpDay d m acc) d' =
      sumTotal acc d' + (if d = d' then 1 else 0) := by
  induction acc with
  | nil =>
    simp only [bumpDay, sumTotal_cons]
    by_cases h : d = d' <;> simp [sumTotal, h]
  | cons c cs ih =>
    by_cases hc : c.date = d
    · simp only [bumpDay, if_pos hc, sumTotal_cons, hc]
      by_cases h : d = d' <;> simp [h, sumTotal_cons] <;> omega
    · simp only [bumpDay, if_neg hc, sumTotal_cons, ih]
      omega

theorem sumMentioned_bumpDay (d : Nat) (m : Bool) (acc : List DayCount)
    (d' : Nat) :
    sumMentioned (bumpDay d m acc) d' =
      sumMentioned acc d' +
        (if d = d' then (if m then 1 else 0) else 0) := by
  induction acc with
  | nil =>
    simp only [bumpDay, sumMentioned_cons]
    by_cases h : d = d' <;> cases m <;> simp [sumMentioned, h]
  | cons c cs ih =>
    by_cases hc : c.date = d
    · simp only [bumpDay, if_pos hc, sumMentioned_cons, hc]
      by_cases h : d = d' <;> cases m <;> simp [h, sumMentioned_cons] <;>
        omega
    · simp only [bumpDay, if_neg hc, sumMentioned_cons, ih]
      omega

theorem dates_bumpDay (d : Nat) (m : Bool) (acc : List DayCount) :
    (bumpDay d m acc).map (fun c => c.date) =
      if d ∈ acc.map (fun c => c.date) then acc.map (fun c => c.date)
      else acc.map (fun c => c.date) ++ [d] := by
  induction acc with
  | nil => simp [bumpDay]
  | cons c cs ih =>
    by_cases hc : c.date = d
    · simp [bumpDay, hc]
    · have hne : ¬d = c.date := fun h => hc h.symm
      by_cases hmem : d ∈ cs.map (fun c => c.date)
      · simp [bumpDay, hc, ih, hmem, hne]
      · simp [bumpDay, hc, ih, hmem, hne]

theorem sumTotal_foldl (trend : List TrendEntry) :
    ∀ (acc : List DayCount) (d : Nat),
      sumTotal (trend.foldl (fun a t => bumpDay t.date t.mentioned a) acc) d
        = sumTotal acc d + dayTotal trend d := by
  induction trend with
  | nil => intro acc d; simp [dayTotal]
  | cons t ts ih =>
    intro acc d
    simp only [List.foldl_cons, ih, sumTotal_bumpDay, dayTotal,
      List.countP_cons]
    by_cases h : t.date = d <;> simp [h] <;> omega

theorem sumMentioned_foldl (trend : List TrendEntry) :
    ∀ (acc : List DayCount) (d : Nat),
      sumMentioned
          (trend.foldl (fun a t => bumpDay t.date t.mentioned a) acc) d
        = sumMentioned acc d + dayMentioned trend d := by
  induction trend with
  | nil => intro acc d; simp [dayMentioned]
  | cons t ts ih =>
    intro acc d
    simp only [List.foldl_cons, ih, sumMentioned_bumpDay, dayMentioned,
      List.countP_cons]
    by_cases h : t.date = d <;> cases hm : t.mentioned <;> simp [h, hm] <;>
      omega

theorem nodup_dates_bumpDay (d : Nat) (m : Bool) (acc : List DayCount)
    (h : (acc.map (fun c => c.date)).Nodup) :
    ((bumpDay d m acc).map (fun c => c.date)).Nodup := by
  rw [dates_bumpDay]
  by_cases hmem : d ∈ acc.map (fun c => c.date)
  · rw [if_pos hmem]; exact h
  · rw [if_neg hmem]
    refine List.Nodup.append h (List.nodup_singleton d) ?_
    intro a ha hb
    rw [List.mem_singleton] at hb
    subst hb
    exact hmem ha

theorem mem_dates_bumpDay (d : Nat) (m : Bool) (acc : List DayCount)
    (d' : Nat) :
    (d' ∈ (bumpDay d m acc).map (fun c => c.date)) ↔
      d' ∈ acc.map (fun c => c.date) ∨ d' = d := by
  rw [dates_bumpDay]
  by_cases hmem : d ∈ acc.map (fun c => c.date)
  · simp only [if_pos hmem]
    constructor
    · exact Or.inl
    · rintro (h | rfl)
      · exact h
      · exact hmem
  · simp [hmem]

theorem nodup_dates_foldl (trend : List TrendEntry) :
    ∀ acc : List DayCount, (acc.map (fun c => c.date)).Nodup →
      (((trend.foldl (fun a t => bumpDay t.date t.mentioned a) acc)).map
        (fun c => c.date)).Nodup := by
  induction trend with
  | nil => intro acc h; simpa using h
  | cons t ts ih =>
    intro acc h
    exact ih _ (nodup_dates_bumpDay t.date t.mentioned acc h)

theorem mem_dates_foldl (trend : List TrendEntry) :
    ∀ (acc : List DayCount) (d : Nat),
      (d ∈ ((trend.foldl (fun a t => bumpDay t.date t.mentioned a) acc)).map
          (fun c => c.date)) ↔
        d ∈ acc.map (fun c => c.date) ∨ 0 < dayTotal trend d := by
  induction trend with
  | nil => intro acc d; simp [dayTotal]
  | cons t ts ih =>
    intro acc d
    have harith : 0 < dayTotal (t :: ts) d ↔
        t.date = d ∨ 0 < dayTotal ts d := by
      simp only [dayTotal, List.countP_cons]
      by_cases h : t.date = d
      · simp [h]
      · simp [h]
    rw [List.foldl_cons, ih, mem_dates_bumpDay, harith,
      show (d = t.date) ↔ (t.date = d) from eq_comm]
    tauto

theorem sumTotal_eq_zero_of_not_mem (l : List DayCount) (d : Nat)
    (h : d ∉ l.map (fun c => c.date)) : sumTotal l d = 0 := by
  induction l with
  | nil => rfl
  | cons c cs ih =>
    simp only [List.map_cons, List.mem_cons, not_or] at h
    rw [sumTotal_cons, if_neg (fun hh => h.1 hh.symm), ih h.2]

theorem sumMentioned_eq_zero_of_not_mem (l : List DayCount) (d : Nat)
    (h : d ∉ l.map (fun c => c.date)) : sumMentioned l d = 0 := by
  induction l with
  | nil => rfl
  | cons c cs ih =>
    simp only [List.map_cons, List.mem_cons, not_or] at h
    rw [sumMentioned_cons, if_neg (fun hh => h.1 hh.symm), ih h.2]

/-- In a bucket list with distinct dates every bucket carries exactly the
summed counts of its date. -/
theorem entry_counts (l : List DayCount)
    (hnd : (l.map (fun c => c.date)).Nodup) :
    ∀ c ∈ l, c.total = sumTotal l c.date ∧
      c.mentioned = sumMentioned l c.date := by
  induction l with
  | nil => intro c hc; simp at hc
  | cons x xs ih =>
    simp only [List.map_cons, List.nodup_cons] at hnd
    intro c hc
    rcases List.mem_cons.mp hc with rfl | hc
    · rw [sumTotal_cons, if_pos rfl, sumMentioned_cons, if_pos rfl,
        sumTotal_eq_zero_of_not_mem xs c.date hnd.1,
        sumMentioned_eq_zero_of_not_mem xs c.date hnd.1]
      exact ⟨rfl, rfl⟩
    · have hxc : ¬x.date = c.date := by
        intro hh
        exact hnd.1 (hh ▸ List.mem_map_of_mem (fun c => c.date) hc)
      rw [sumTotal_cons, if_neg hxc, sumMentioned_cons, if_neg hxc]
      simpa using ih hnd.2 c hc

theorem perm_insertByDateAsc (c : DayCount) (l : List DayCount) :
    List.Perm (insertByDateAsc c l) (c :: l) := by
  induction l with
  | nil => simp [insertByDateAsc]
  | cons x xs ih =>
    simp only [insertByDateAsc]
    by_cases h : c.date ≤ x.date
    · simp [h]
    · rw [if_neg h]
      exact ((ih.cons x).trans (List.Perm.swap c x xs))

theorem perm_sortByDateAsc (l : List DayCount) :
    List.Perm (sortByDateAsc l) l := by
  induction l with
  | nil => simp [sortByDateAsc]
  | cons x xs ih =>
    exact (perm_insertByDateAsc x (sortByDateAsc xs)).trans (ih.cons x)

theorem sorted_insertByDateAsc (c : DayCount) (l : List DayCount)
    (h : l.Pairwise (fun a b => a.date ≤ b.date)) :
    (insertByDateAsc c l).Pairwise (fun a b => a.date ≤ b.date) := by
  induction l with
  | nil => simp [insertByDateAsc]
  | cons x xs ih =>
    rcases List.pairwise_cons.mp h with ⟨hx, hxs⟩
    simp only [insertByDateAsc]
    by_cases hc : c.date ≤ x.date
    · rw [if_pos hc]
      refine List.pairwise_cons.mpr ⟨?_, h⟩
      intro z hz
      rcases List.mem_cons.mp hz with rfl | hz
      · exact hc
      · exact le_trans hc (hx z hz)
    · rw [if_neg hc]
      refine List.pairwise_cons.mpr ⟨?_, ih hxs⟩
      intro z hz
      rcases (perm_insertByDateAsc c xs).mem_iff.mp hz with hz'
      rcases List.mem_cons.mp hz' with rfl | hz'
      · exact le_of_not_le hc
      · exact hx z hz'

theorem sorted_sortByDateAsc (l : List DayCount) :
    (sortByDateAsc l).Pairwise (fun a b => a.date ≤ b.date) := by
  induction l with
  | nil => simp [sortByDateAsc]
  | cons x xs ih => exact sorted_insertByDateAsc x (sortByDateAsc xs) ih

/-- Embeds one point of OverviewData.mention_rate_trend as delivered by the
overview endpoint: a calendar day and a fractional mention rate. -/
structure OverviewTrendPoint where
  date : Nat
  rate : ℚ
deriving Repr, DecidableEq

/-- Embeds the trendData mapping of DashboardOverview: one chart point per
server trend point, with the rate rescaled to a rounded percentage by
`Math.round(d.rate * 10000) / 100`; no points are invented or dropped. -/
def overviewTrendData (pts : List OverviewTrendPoint) : List (Nat × ℚ) :=
  pts.map (fun p => (p.date, ((round (p.rate * 10000) : ℤ) : ℚ) / 100))

/-- C2: the trend series of the drill-down has exactly one point per
calendar day carrying at least one result and none for a day with zero
results, in ascending day order; each point's value is that day's mention
rate, the day's mentioned count over the day's total count, rendered as a
rounded percentage; and the overview chart draws exactly one point per
point of the server trend series, so a window holding only 10 days of data
draws 10 points, never zero-filled ones. -/
theorem c2_trend_one_point_per_day_with_data (trend : List TrendEntry) :
    ((trendChartData trend).map Prod.fst).Nodup ∧
    ((trendChartData trend).map Prod.fst).Pairwise (fun a b => a ≤ b) ∧
    (∀ d, d ∈ (trendChartData trend).map Prod.fst ↔
      0 < dayTotal trend d) ∧
    (∀ p ∈ trendChartData trend,
      0 < dayTotal trend p.1 ∧
      p.2 = roundPct (dayMentioned trend p.1) (dayTotal trend p.1)) ∧
    ∀ pts : List OverviewTrendPoint,
      (overviewTrendData pts).length = pts.length := by
  have hperm : List.Perm
      ((sortByDateAsc (trendMap trend)).map (fun c => c.date))
      ((trendMap trend).map (fun c => c.date)) :=
    (perm_sortByDateAsc (trendMap trend)).map _
  have hdates : (trendChartData trend).map Prod.fst =
      (sortByDateAsc (trendMap trend)).map (fun c => c.date) := by
    simp [trendChartData, List.map_map, Function.comp]
  have hnodup : ((trendMap trend).map (fun c => c.date)).Nodup :=
    nodup_dates_foldl trend [] (by simp)
  have hmemTot : ∀ d, d ∈ (trendMap trend).map (fun c => c.date) ↔
      0 < dayTotal trend d := by
    intro d
    simpa [sumTotal] using mem_dates_foldl trend [] d
  have hcounts : ∀ c ∈ trendMap trend,
      c.total = dayTotal trend c.date ∧
      c.mentioned = dayMentioned trend c.date := by
    intro c hc
    obtain ⟨h1, h2⟩ := entry_counts (trendMap trend) hnodup c hc
    constructor
    · rw [h1]
      simpa [sumTotal] using sumTotal_foldl trend [] c.date
    · rw [h2]
      simpa [sumMentioned] using sumMentioned_foldl trend [] c.date
  refine ⟨?_, ?_, ?_, ?_, ?_⟩
  · exact hdates ▸ hperm.nodup_iff.mpr hnodup
  · rw [hdates]
    exact (sorted_sortByDateAsc (trendMap trend)).map _ (fun a b h => h)
  · intro d
    rw [hdates, hperm.mem_iff]
    exact hmemTot d
  · intro p hp
    obtain ⟨c, hc, rfl⟩ := List.mem_map.mp hp
    have hcmem : c ∈ trendMap trend :=
      (perm_sortByDateAsc (trendMap trend)).subset hc
    obtain ⟨htot, hmen⟩ := hcounts c hcmem
    have hpos : 0 < dayTotal trend c.date :=
      (hmemTot c.date).mp (List.mem_map_of_mem _ hcmem)
    have hposTot : 0 < c.total := by rw [htot]; exact hpos
    refine ⟨hpos, ?_⟩
    simp only [perDayRate, if_pos hposTot]
    rw [htot, hmen]
  · intro pts
    simp [overviewTrendData]

/-- Closed instance of the C2 theorem at a concrete two-day input. -/
theorem c2_trend_one_point_per_day_with_data_witness :
    (3, 50) ∈ trendChartData
        [⟨3, true, "openai"⟩, ⟨3, false, "gemini"⟩, ⟨1, true, "openai"⟩] ∧
    0 < dayTotal
        [⟨3, true, "openai"⟩, ⟨3, false, "gemini"⟩, ⟨1, true, "openai"⟩] 3 ∧
    (50 : Nat) = roundPct
      (dayMentioned
        [⟨3, true, "openai"⟩, ⟨3, false, "gemini"⟩, ⟨1, true, "openai"⟩] 3)
      (dayTotal
        [⟨3, true, "openai"⟩, ⟨3, false, "gemini"⟩, ⟨1, true, "openai"⟩] 3)
    := by
  have h := (c2_trend_one_point_per_day_with_data
    [⟨3, true, "openai"⟩, ⟨3, false, "gemini"⟩, ⟨1, true, "openai"⟩]).2.2.2.1
    (3, 50) (by decide)
  exact ⟨by decide, h.1, h.2⟩

/-- Embeds the sentiment_breakdown record of OverviewData. -/
structure SentimentBreakdown where
  positive : Nat
  neutral : Nat
  negative : Nat
  mixed : Nat
deriving Repr, DecidableEq

/-- Embeds the OverviewData interface of the dashboard overview page. -/
structure OverviewData where
  mention_rate : ℚ
  mention_rate_trend : List OverviewTrendPoint
  top_rec_rate : ℚ
  total_queries : Nat
  total_runs : Nat
  engine_breakdown : List (String × ℚ)
  sentiment_breakdown : SentimentBreakdown
deriving Repr, DecidableEq

/-- The render states of the overview page once loading and fetch errors are
past: the explicit "No data yet" empty state, or the loaded dashboard whose
payload carries the chart data computed from the overview bundle. -/
inductive OverviewView where
  | emptyState
  | loaded (trend : List (Nat × ℚ)) (mentionRatePct : ℚ)
deriving Repr, DecidableEq

/-- Embeds the branching of DashboardOverview after load: when the data is
absent or total_runs is 0 the page renders the empty state before any chart
data or rate is computed; otherwise it renders the charts. -/
def renderOverview (data : Option OverviewData) : OverviewView :=
  match data with
  | none => .emptyState
  | some d =>
    if d.total_runs = 0 then .emptyState
    else .loaded (overviewTrendData d.mention_rate_trend)
      (d.mention_rate * 100)

/-- C3: an absent overview bundle or one with total_runs = 0 renders the
explicit empty state, so no rate is evaluated there; and the per-day rate
computation guards a zero total with the defined value 0 instead of
dividing by zero. -/
theorem c3_empty_state_guards_rates :
    renderOverview none = .emptyState ∧
    (∀ d : OverviewData, d.total_runs = 0 →
      renderOverview (some d) = .emptyState) ∧
    ∀ m : Nat, perDayRate m 0 = 0 := by
  refine ⟨rfl, ?_, ?_⟩
  · intro d hd
    simp [renderOverview, hd]
  · intro m
    simp [perDayRate]

/-- Closed instance of the C3 theorem at a concrete overview bundle with
zero runs. -/
theorem c3_empty_state_guards_rates_witness :
    renderOverview (some
      { mention_rate := 0, mention_rate_trend := [], top_rec_rate := 0,
        total_queries := 5, total_runs := 0, engine_breakdown := [],
        sentiment_breakdown := ⟨0, 0, 0, 0⟩ }) = .emptyState :=
  c3_empty_state_guards_rates.2.1
    { mention_rate := 0, mention_rate_trend := [], top_rec_rate := 0,
      total_queries := 5, total_runs := 0, engine_breakdown := [],
      sentiment_breakdown := ⟨0, 0, 0, 0⟩ } rfl

/-- Embeds the Competitor interface of the competitors page. -/
structure Competitor where
  id : String
  brand_id : String
  name : String
  aliases : List String
deriving Repr, DecidableEq

/-- One brand row of the comparison payload. -/
structure ComparisonEntry where
  name : String
  mention_rate : ℚ
deriving Repr, DecidableEq

/-- One row of the query-winners table: per engine, either the winning
entity name or null. -/
structure QueryWinnersRow where
  query_text : String
  winners : List (String × Option String)
deriving Repr, DecidableEq

/-- Embeds the CompetitorComparison interface of the competitors page. -/
structure CompetitorComparison where
  brand : ComparisonEntry
  competitors : List ComparisonEntry
  query_winners : List QueryWinnersRow
deriving Repr, DecidableEq

/-- Embeds `.catch(() => null)` on the comparison request: a rejected fetch
degrades to null instead of propagating. -/
def catchToNull {α : Type} (out : Except String α) : Option α :=
  match out with
  | .ok a => some a
  | .error _ => none

/-- The component state of the competitors page that fetchData writes:
the competitor list, the comparison payload or null, and the error banner
text (empty when no error was set). -/
structure CompetitorsPageState where
  competitors : List Competitor
  comparison : Option CompetitorComparison
  error : String
deriving Repr, DecidableEq

/-- Embeds fetchData of the competitors page: the comparison request is
awaited with `.catch(() => null)`, so only a failure of the competitors
request reaches the catch block and sets the error state; on that failure
the previously rendered lists are kept. -/
def fetchDataResult (comps : Except String (List Competitor))
    (comparison : Except String CompetitorComparison)
    (prev : CompetitorsPageState) : CompetitorsPageState :=
  match comps with
  | .ok cs => { competitors := cs, comparison := catchToNull comparison,
                error := "" }
  | .error e => { prev with error := e }

/-- Rounds a mention rate to a percentage with two decimals, as
`Math.round(rate * 100) / 100` does on the already-scaled rate. -/
def round2 (r : ℚ) : ℚ := ((round (r * 100) : ℤ) : ℚ) / 100

/-- Embeds the chartData construction of the competitors page: the brand
entry followed by one entry per competitor. -/
def chartData (c : CompetitorComparison) : List (String × ℚ) :=
  (c.brand.name, round2 c.brand.mention_rate) ::
    c.competitors.map (fun e => (e.name, round2 e.mention_rate))

/-- The comparison half of the competitors page: either the chart plus
winners table, or the explicit "No comparison data yet" block. -/
inductive ComparisonSection where
  | charts (c : CompetitorComparison)
  | noData
deriving Repr, DecidableEq

/-- The render states of the competitors page. -/
inductive CompetitorsView where
  | errorScreen (msg : String)
  | emptyCompetitors
  | content (comps : List Competitor) (sec : ComparisonSection)
deriving Repr, DecidableEq

/-- Embeds the render branching of CompetitorsPage after load: the full
error screen only when an error is set with no competitors and no
comparison; the add-competitors empty state when the list is empty; else
the list plus either the comparison charts (comparison present and
chartData nonempty) or the explicit no-comparison-data block. -/
def renderCompetitorsPage (st : CompetitorsPageState) : CompetitorsView :=
  if st.error ≠ "" ∧ st.competitors = [] ∧ st.comparison = none then
    .errorScreen st.error
  else if st.competitors = [] then .emptyCompetitors
  else
    match st.comparison with
    | some c =>
      if 0 < (chartData c).length then .content st.competitors (.charts c)
      else .content st.competitors .noData
    | none => .content st.competitors .noData

/-- C4: a rejected comparison request never surfaces as an exception or an
error screen: fetchData stores null for the comparison and leaves the error
state empty, and with any nonempty competitor list the page renders the
competitor content with the explicit no-comparison-data block. -/
theorem c4_comparison_failure_degrades_to_empty_state
    (cs : List Competitor) (e : String) (prev : CompetitorsPageState) :
    (fetchDataResult (.ok cs) (.error e) prev).error = "" ∧
    (fetchDataResult (.ok cs) (.error e) prev).comparison = none ∧
    (fetchDataResult (.ok cs) (.error e) prev).competitors = cs ∧
    (cs ≠ [] →
      renderCompetitorsPage (fetchDataResult (.ok cs) (.error e) prev) =
        .content cs .noData) := by
  refine ⟨rfl, rfl, rfl, ?_⟩
  intro hcs
  simp [fetchDataResult, catchToNull, renderCompetitorsPage, hcs]

/-- Closed instance of the C4 theorem at a concrete failed comparison
fetch. -/
theorem c4_comparison_failure_degrades_to_empty_state_witness :
    renderCompetitorsPage (fetchDataResult
      (.ok [{ id := "c1", brand_id := "b1", name := "Airtable",
              aliases := [] }])
      (.error "HTTP 500")
      { competitors := [], comparison := none, error := "" }) =
      .content [{ id := "c1", brand_id := "b1", name := "Airtable",
                  aliases := [] }] .noData :=
  (c4_comparison_failure_degrades_to_empty_state
    [{ id := "c1", brand_id := "b1", name := "Airtable", aliases := [] }]
    "HTTP 500"
    { competitors := [], comparison := none, error := "" }).2.2.2
    (by decide)

/-- The render states of one winner cell: the explicit None state, or an
entity badge that is highlighted when it is the user's own brand. -/
inductive WinnerCell where
  | noneState
  | entity (name : String) (isYourBrand : Bool)
deriving Repr, DecidableEq

/-- Lowercases a string character by character, embedding the JS
`toLowerCase()` call on the ASCII entity names the pages compare. -/
def toLowerStr (s : String) : String :=
  String.mk (s.toList.map Char.toLower)

/-- Embeds the WinnerBadge component of the competitors page: a falsy
winner (null, or the empty string) renders the None state; otherwise the
badge shows the winner and marks it as the owned brand exactly when it
equals the brand name after lowercasing both. -/
def WinnerBadge (winner : Option String) (brandName : String) : WinnerCell :=
  match winner with
  | none => .noneState
  | some w =>
    if w = "" then .noneState
    else .entity w (toLowerStr w == toLowerStr brandName)

/-- C7: each winner cell renders either exactly one entity name or the
explicit None state: a null winner renders None, and a nonempty winner w
renders an entity badge for w that is marked as the owned brand exactly
when w equals the brand name case-insensitively. -/
theorem c7_winner_cell_entity_or_none :
    (∀ b : String, WinnerBadge none b = .noneState) ∧
    (∀ (w b : String), w ≠ "" →
      WinnerBadge (some w) b = .entity w (toLowerStr w == toLowerStr b)) ∧
    ∀ (winner : Option String) (b : String),
      WinnerBadge winner b = .noneState ∨
        ∃ n yb, WinnerBadge winner b = .entity n yb := by
  refine ⟨fun b => rfl, ?_, ?_⟩
  · intro w b hw
    simp [WinnerBadge, hw]
  · intro winner b
    match winner with
    | none => exact Or.inl rfl
    | some w =>
      by_cases hw : w = ""
      · exact Or.inl (by simp [WinnerBadge, hw])
      · exact Or.inr ⟨w, toLowerStr w == toLowerStr b,
          by simp [WinnerBadge, hw]⟩

/-- Closed instance of the C7 theorem: the brand itself wins a cell and is
marked as the owned brand under case-insensitive comparison. -/
theorem c7_winner_cell_entity_or_none_witness :
    WinnerBadge (some "notion") "Notion" = .entity "notion" true := by
  have h := c7_winner_cell_entity_or_none.2.1 "notion" "Notion"
    (by decide)
  rw [h]
  decide

/-- An HTTP request issued by the API client: method, path and optional
JSON payload. -/
structure RequestSpec where
  method : String
  path : String
  body : Option String
deriving Repr, DecidableEq

/-- Embeds ApiClient.triggerRun: a POST to the run endpoint of the brand
with no payload. -/
def triggerRunRequest (brandId : String) : RequestSpec :=
  { method := "POST", path := "/api/brands/" ++ brandId ++ "/run",
    body := none }

/-- Modelled from the spec: the backend manual-run endpoint (the FastAPI
route behind /api/brands/:id/run, whose source is not under src/) returns
an immediate acknowledgment message while the run proceeds asynchronously;
its response carries no QueryResults, so this acknowledgment type has only
the message field. -/
structure RunAck where
  message : String
deriving Repr, DecidableEq

/-- What handleRunScan of the overview page does with a completed trigger
call: display `result.message || "Scan started successfully!"` and
schedule a re-fetch of the overview 3000 ms later; the run's results are
never read from the trigger response. -/
structure ScanEffect where
  displayedMessage : String
  refetchDelayMs : Nat
deriving Repr, DecidableEq

/-- Embeds handleRunScan of DashboardOverview. -/
def handleRunScan (ack : RunAck) : ScanEffect :=
  { displayedMessage :=
      if ack.message ≠ "" then ack.message else "Scan started successfully!",
    refetchDelayMs := 3000 }

/-- C6: the manual trigger-run call POSTs to the run endpoint of the brand
with no payload; the caller consumes only the acknowledgment message of the
response (an acknowledgment holds nothing but a message) and observes the
run only indirectly, through the overview re-fetch it schedules instead of
waiting on run completion. -/
theorem c6_trigger_run_ack_only (brandId : String) (ack : RunAck) :
    (triggerRunRequest brandId).method = "POST" ∧
    (triggerRunRequest brandId).body = none ∧
    (triggerRunRequest brandId).path =
      "/api/brands/" ++ brandId ++ "/run" ∧
    (ack.message ≠ "" →
      (handleRunScan ack).displayedMessage = ack.message) ∧
    (handleRunScan ack).refetchDelayMs = 3000 := by
  refine ⟨rfl, rfl, rfl, ?_, rfl⟩
  intro h
  simp [handleRunScan, h]

/-- Closed instance of the C6 theorem at a concrete brand and
acknowledgment. -/
theorem c6_trigger_run_ack_only_witness :
    (triggerRunRequest "b1").body = none ∧
    (handleRunScan ⟨"Scan started"⟩).displayedMessage = "Scan started" :=
  ⟨(c6_trigger_run_ack_only "b1" ⟨"Scan started"⟩).2.1,
   (c6_trigger_run_ack_only "b1" ⟨"Scan started"⟩).2.2.2.1 (by decide)⟩

/-- How `res.json()` with `.catch(() => ({ detail: "Request failed" }))`
can come out on an error body: the parse fails, or it yields a JSON value
whose detail field is a string or absent. -/
inductive BodyParse where
  | fails
  | json (detail : Option String)
deriving Repr, DecidableEq

/-- The part of a fetch response ApiClient.request observes. -/
structure FetchResponse where
  ok : Bool
  status : Nat
  body : BodyParse
deriving Repr, DecidableEq

/-- The outcome of ApiClient.request: a thrown Error with its message, the
undefined return of a 204, or the parsed response body. -/
inductive RequestOutcome where
  | threw (msg : String)
  | returnedUndefined
  | returnedBody (b : BodyParse)
deriving Repr, DecidableEq

/-- Embeds the error message computation on a non-ok response: a body that
fails to parse is replaced by `{ detail: "Request failed" }`, and the Error
message is `error.detail || "HTTP " + res.status` (a missing or empty
detail falls back to the status text). -/
def errorMessage (resp : FetchResponse) : String :=
  let detail : Option String :=
    match resp.body with
    | .fails => some "Request failed"
    | .json d => d
  match detail with
  | some s => if s ≠ "" then s else "HTTP " ++ toString resp.status
  | none => "HTTP " ++ toString resp.status

/-- Embeds the control flow of ApiClient.request after the fetch resolves:
throw on a non-ok status, return undefined on 204, else return the parsed
body. -/
def requestOutcome (resp : FetchResponse) : RequestOutcome :=
  if resp.ok = false then .threw (errorMessage resp)
  else if resp.status = 204 then .returnedUndefined
  else .returnedBody resp.body

/-- Replaces the value of a header key, as assignment into the JS headers
object does. -/
def setHeader (k v : String) (hs : List (String × String)) :
    List (String × String) :=
  hs.filter (fun p => p.1 ≠ k) ++ [(k, v)]

/-- Embeds the headers construction of ApiClient.request: the JSON
content-type, then the spread of the caller headers, then the Authorization
header assigned exactly when the stored token is truthy (a token has been
set and is nonempty). -/
def buildHeaders (token : Option String)
    (optHeaders : List (String × String)) : List (String × String) :=
  let base := optHeaders.foldl (fun hs kv => setHeader kv.1 kv.2 hs)
    [("Content-Type", "application/json")]
  match token with
  | some t => if t ≠ "" then setHeader "Authorization" ("Bearer " ++ t) base
              else base
  | none => base

/-- Whether a headers list carries an Authorization entry. -/
def hasAuthHeader (hs : List (String × String)) : Bool :=
  hs.any (fun p => p.1 == "Authorization")

theorem hasAuthHeader_setHeader (k v : String)
    (hs : List (String × String)) :
    hasAuthHeader (setHeader k v hs) =
      (k == "Authorization" || hasAuthHeader hs) := by
  induction hs with
  | nil => simp [hasAuthHeader, setHeader]
  | cons p ps ih =>
    by_cases hp : p.1 = k
    · have h1 : setHeader k v (p :: ps) = setHeader k v ps := by
        simp [setHeader, hp]
      have h2 : (p.1 == "Authorization") = (k == "Authorization") := by
        rw [hp]
      rw [h1, ih]
      simp only [hasAuthHeader, List.any_cons, h2]
      cases k == "Authorization" <;> simp
    · have h1 : setHeader k v (p :: ps) = p :: setHeader k v ps := by
        simp [setHeader, hp]
      rw [h1]
      simp only [hasAuthHeader, List.any_cons]
      rw [show (setHeader k v ps).any (fun q => q.1 == "Authorization") =
        (k == "Authorization" || ps.any (fun q => q.1 == "Authorization"))
        from ih]
      cases p.1 == "Authorization" <;> cases k == "Authorization" <;> simp

theorem hasAuthHeader_base (optHeaders : List (String × String))
    (hopt : ∀ p ∈ optHeaders, p.1 ≠ "Authorization") :
    hasAuthHeader (optHeaders.foldl (fun hs kv => setHeader kv.1 kv.2 hs)
      [("Content-Type", "application/json")]) = false := by
  suffices h : ∀ hs : List (String × String), hasAuthHeader hs = false →
      hasAuthHeader (optHeaders.foldl (fun a kv => setHeader kv.1 kv.2 a) hs)
        = false by
    exact h _ (by simp [hasAuthHeader])
  induction optHeaders with
  | nil => intro hs h; simpa using h
  | cons kv rest ih =>
    intro hs h
    refine ih (fun p hp => hopt p (List.mem_cons_of_mem kv hp)) _ ?_
    rw [hasAuthHeader_setHeader]
    have : (kv.1 == "Authorization") = false := by
      simpa using hopt kv (List.mem_cons_self kv rest)
    simp [this, h]

/-- C8: on every non-ok response ApiClient.request throws (it never
returns a value): with the fixed message "Request failed" when the body
fails to parse, and with the detail string of the body when it parses to a
JSON object carrying a nonempty detail; a 204 response returns undefined;
and the Authorization header is attached exactly when a nonempty token was
stored by setToken. -/
theorem c8_request_error_contract (resp : FetchResponse) :
    (resp.ok = false → ∃ m, requestOutcome resp = .threw m) ∧
    (resp.ok = false → resp.body = .fails →
      requestOutcome resp = .threw "Request failed") ∧
    (∀ d, resp.ok = false → resp.body = .json (some d) → d ≠ "" →
      requestOutcome resp = .threw d) ∧
    (resp.ok = true → resp.status = 204 →
      requestOutcome resp = .returnedUndefined) ∧
    (∀ (t : String) (optHeaders : List (String × String)), t ≠ "" →
      (∀ p ∈ optHeaders, p.1 ≠ "Authorization") →
      hasAuthHeader (buildHeaders (some t) optHeaders) = true) ∧
    ∀ optHeaders : List (String × String),
      (∀ p ∈ optHeaders, p.1 ≠ "Authorization") →
      hasAuthHeader (buildHeaders none optHeaders) = false := by
  refine ⟨?_, ?_, ?_, ?_, ?_, ?_⟩
  · intro hok
    exact ⟨errorMessage resp, by simp [requestOutcome, hok]⟩
  · intro hok hbody
    simp [requestOutcome, hok, errorMessage, hbody]
  · intro d hok hbody hd
    simp [requestOutcome, hok, errorMessage, hbody, hd]
  · intro hok h204
    simp [requestOutcome, hok, h204]
  · intro t optHeaders ht hopt
    simp only [buildHeaders, if_pos ht, hasAuthHeader_setHeader]
    simp
  · intro optHeaders hopt
    simpa [buildHeaders] using hasAuthHeader_base optHeaders hopt

/-- Closed instance of the C8 theorem at a concrete 403 with a detail body
and a concrete token. -/
theorem c8_request_error_contract_witness :
    requestOutcome ⟨false, 403, .json (some "Forbidden")⟩ =
      .threw "Forbidden" ∧
    hasAuthHeader (buildHeaders (some "jwt-token-123") []) = true :=
  ⟨(c8_request_error_contract ⟨false, 403, .json (some "Forbidden")⟩).2.2.1
      "Forbidden" rfl rfl (by decide),
   (c8_request_error_contract ⟨false, 403, .json (some "Forbidden")⟩).2.2.2.2.1
      "jwt-token-123" [] (by decide) (by simp)⟩

/-- Whether the stringified value contains a comma, a double quote or a
newline, the test escapeCSV performs with `includes`. -/
def needsQuoting (s : String) : Bool :=
  s.toList.any (fun c => c == ',' || c == '"' || c == '\n')

/-- Doubles every double quote, embedding `str.replace(/"/g, STR)` where
the replacement is two double quotes. -/
def doubleQuotes : List Char → List Char
  | [] => []
  | c :: cs =>
    if c == '"' then '"' :: '"' :: doubleQuotes cs
    else c :: doubleQuotes cs

/-- Embeds escapeCSV of the export module: a value holding a comma, double
quote or newline is wrapped in double quotes with embedded double quotes
doubled; any other value passes through unchanged. The caller stringifies
numbers first, so the input is the stringified value. -/
def escapeCSV (s : String) : String :=
  if needsQuoting s then String.mk ('"' :: (doubleQuotes s.toList ++ ['"']))
  else s

/-- Collapses doubled double quotes back to single ones, the inverse step
of the standard CSV reading of a quoted field. -/
def collapseQuotes : List Char → List Char
  | [] => []
  | [c] => [c]
  | c :: d :: cs =>
    if c == '"' && d == '"' then '"' :: collapseQuotes cs
    else c :: collapseQuotes (d :: cs)

/-- The standard CSV reading of one emitted field: a field wrapped in
double quotes stands for its inside with doubled double quotes collapsed;
any other field stands for itself. -/
def csvFieldValue (s : String) : String :=
  let l := s.toList
  if l.head? = some '"' ∧ 2 ≤ l.length ∧ l.getLast? = some '"' then
    String.mk (collapseQuotes ((l.dropLast).drop 1))
  else s

theorem collapseQuotes_doubleQuotes (l : List Char) :
    collapseQuotes (doubleQuotes l) = l := by
  induction l with
  | nil => rfl
  | cons c cs ih =>
    by_cases hc : c = '"'
    · subst hc
      rw [show doubleQuotes ('"' :: cs) = '"' :: '"' :: doubleQuotes cs from
        by simp [doubleQuotes]]
      rw [show collapseQuotes ('"' :: '"' :: doubleQuotes cs) =
        '"' :: collapseQuotes (doubleQuotes cs) from by
          simp [collapseQuotes], ih]
    · have hcb : (c == '"') = false := by simpa using hc
      simp only [doubleQuotes, hcb, Bool.false_eq_true, if_false]
      cases hdq : doubleQuotes cs with
      | nil =>
        rw [hdq] at ih
        simp [collapseQuotes, ← ih]
      | cons d ds =>
        rw [hdq] at ih
        rw [show collapseQuotes (c :: d :: ds) =
          c :: collapseQuotes (d :: ds) from by
            simp [collapseQuotes, hcb], ih]

theorem strMk_toList (s : String) : String.mk s.toList = s := rfl

/-- C9: a field without comma, double quote or newline is emitted
unchanged; a field holding one of them is emitted wrapped in double quotes
with embedded double quotes doubled; and in both cases the standard CSV
reading of the emitted field recovers the original value exactly. -/
theorem c9_escapeCSV_roundtrip (s : String) :
    ((∀ c ∈ s.toList, c ≠ ',' ∧ c ≠ '"' ∧ c ≠ '\n') → escapeCSV s = s) ∧
    ((∃ c ∈ s.toList, c = ',' ∨ c = '"' ∨ c = '\n') →
      escapeCSV s =
        String.mk ('"' :: (doubleQuotes s.toList ++ ['"']))) ∧
    csvFieldValue (escapeCSV s) = s := by
  have hq : needsQuoting s = true ↔
      ∃ c ∈ s.toList, c = ',' ∨ c = '"' ∨ c = '\n' := by
    simp [needsQuoting, or_assoc]
  refine ⟨?_, ?_, ?_⟩
  · intro h
    have : needsQuoting s = false := by
      rw [← Bool.not_eq_true, hq]
      rintro ⟨c, hc, hcase⟩
      rcases hcase with rfl | rfl | rfl
      · exact (h _ hc).1 rfl
      · exact (h _ hc).2.1 rfl
      · exact (h _ hc).2.2 rfl
    simp [escapeCSV, this]
  · intro h
    simp [escapeCSV, hq.mpr h]
  · by_cases hneed : needsQuoting s = true
    · rw [show escapeCSV s =
        String.mk ('"' :: (doubleQuotes s.toList ++ ['"'])) from by
          simp [escapeCSV, hneed]]
      have htl : (String.mk ('"' :: (doubleQuotes s.toList ++ ['"']))).toList
          = ('"' :: doubleQuotes s.toList) ++ ['"'] := by
        rw [show (String.mk ('"' :: (doubleQuotes s.toList ++ ['"']))).toList
          = '"' :: (doubleQuotes s.toList ++ ['"']) from rfl]
        simp
      simp only [csvFieldValue, htl]
      rw [if_pos ?side]
      case side =>
        refine ⟨by simp, ?_, by rw [List.getLast?_concat]⟩
        simp
      rw [List.dropLast_concat]
      rw [show (('"' :: doubleQuotes s.toList).drop 1) =
        doubleQuotes s.toList from rfl]
      rw [collapseQuotes_doubleQuotes, strMk_toList]
    · have hfalse : needsQuoting s = false := by
        simpa using hneed
      have hnoquote : ∀ c ∈ s.toList, ¬c = '"' := by
        intro c hc hcq
        have : needsQuoting s = true := hq.mpr ⟨c, hc, Or.inr (Or.inl hcq)⟩
        rw [hfalse] at this
        exact Bool.noConfusion this
      rw [show escapeCSV s = s from by simp [escapeCSV, hfalse]]
      simp only [csvFieldValue]
      rw [if_neg ?nostart]
      case nostart =>
        rintro ⟨hhead, _, _⟩
        cases hl : s.toList with
        | nil => rw [hl] at hhead; exact Option.noConfusion hhead
        | cons c cs =>
          rw [hl] at hhead
          have : c = '"' := by simpa using hhead
          exact hnoquote c (hl ▸ List.mem_cons_self c cs) this

/-- Closed instance of the C9 theorem at concrete fields holding a comma
and a double quote. -/
theorem c9_escapeCSV_roundtrip_witness :
    escapeCSV "a,b" =
      String.mk ('"' :: (doubleQuotes "a,b".toList ++ ['"'])) ∧
    csvFieldValue (escapeCSV "a,\"b\"") = "a,\"b\"" :=
  ⟨(c9_escapeCSV_roundtrip "a,b").2.1 ⟨',', by decide, Or.inl rfl⟩,
   (c9_escapeCSV_roundtrip "a,\"b\"").2.2⟩

/-- Embeds the relevantResults selection of the queries-page filter: with
an engine filter active, the latest result of that engine alone (filtered
by Boolean, so an undefined entry disappears); otherwise the latest results
of all four engines in ENGINES order. -/
def relevantResults (results : List QueryResult) (queryId : String)
    (filterEngine : String) : List QueryResult :=
  if filterEngine ≠ "" then
    (getLatestByEngine results queryId filterEngine).toList
  else ENGINES.filterMap (getLatestByEngine results queryId)

/-- Embeds the filter predicate of filteredQueries on the queries page: the
category filter first, then, when an engine, mentioned or sentiment filter
is active, the checks against the latest results per engine, with a query
without relevant results kept exactly when the mentioned filter is set to
the value "no". -/
def queryPasses (results : List QueryResult) (fE fM fS fC : String)
    (q : MonitoredQuery) : Bool :=
  if fC ≠ "" ∧ q.category ≠ some fC then false
  else if fE ≠ "" ∨ fM ≠ "" ∨ fS ≠ "" then
    let relevant := relevantResults results q.id fE
    if relevant = [] then fM == "no"
    else
      let mentionOk : Bool :=
        if fM = "yes" then relevant.any (fun r => r.brand_mentioned)
        else if fM = "no" then relevant.any (fun r => !r.brand_mentioned)
        else true
      let sentimentOk : Bool :=
        if fS ≠ "" then relevant.any (fun r => r.sentiment == fS) else true
      mentionOk && sentimentOk
  else true

/-- Embeds filteredQueries of the queries page. -/
def filteredQueries (queries : List MonitoredQuery)
    (results : List QueryResult) (fE fM fS fC : String) :
    List MonitoredQuery :=
  queries.filter (queryPasses results fE fM fS fC)

/-- C10 (amended): when at least one of the engine, mentioned or sentiment
filters is active, the query passes the category filter, and the query has
no latest result for any relevant engine, the query appears in the
filtered list exactly when the mentioned filter is set to "no" — a
zero-result query counts as not mentioned regardless of the engine and
sentiment filter values; a mismatching active category filter, which runs
first, still removes such a query. -/
theorem c10_zero_result_query_appears_iff_not_mentioned
    (queries : List MonitoredQuery) (results : List QueryResult)
    (fE fM fS fC : String) (q : MonitoredQuery)
    (hq : q ∈ queries)
    (hcat : fC = "" ∨ q.category = some fC)
    (hactive : fE ≠ "" ∨ fM ≠ "" ∨ fS ≠ "")
    (hempty : relevantResults results q.id fE = []) :
    q ∈ filteredQueries queries results fE fM fS fC ↔ fM = "no" := by
  have hcatneg : ¬(fC ≠ "" ∧ q.category ≠ some fC) := by
    rcases hcat with h | h
    · intro hh; exact hh.1 h
    · intro hh; exact hh.2 h
  have hpass : queryPasses results fE fM fS fC q = (fM == "no") := by
    simp only [queryPasses]
    rw [if_neg hcatneg, if_pos hactive, if_pos hempty]
  simp [filteredQueries, List.mem_filter, hpass, hq]

/-- C10 scenario data: a query with no category. -/
def c10query : MonitoredQuery :=
  { id := "q1", brand_id := "b1", query_text := "best crm for startups",
    category := none, is_active := true, created_at := "2024-01-01" }

/-- C10 fails as stated: the query has no results and the mentioned filter
is "no", yet an active category filter the query does not satisfy removes
it from the filtered list, so membership is not equivalent to the
mentioned filter being "no". -/
theorem c10_counterexample :
    relevantResults ([] : List QueryResult) c10query.id "" = [] ∧
    filteredQueries [c10query] [] "" "no" "" "pricing" = [] ∧
    ("no" : String) = "no" := by decide

/-- Closed instance of the amended C10 theorem at a concrete zero-result
query with no category filter. -/
theorem c10_zero_result_query_appears_iff_not_mentioned_witness :
    c10query ∈ filteredQueries [c10query] [] "" "no" "" "" ↔
      ("no" : String) = "no" :=
  c10_zero_result_query_appears_iff_not_mentioned [c10query] [] "" "no" "" ""
    c10query (List.mem_cons_self _ _) (Or.inl rfl)
    (Or.inr (Or.inl (by decide))) (by decide)

/-- Modelled from the spec: the MentionDetector word character test. The
detector itself lives in the backend service response_parser.py, which is
not under src/, so sections 4.1 and 8 of the spec supply the algorithm: a
boundary is any non-alphanumeric character or the string start and end. -/
def isWordChar (c : Char) : Bool := c.isAlphanum

/-- Modelled from the spec: the case-insensitive comparison of one alias
against the response text at offset i (section 4.1: a case-insensitive
search for the name and every alias). -/
def matchesAt (text pat : List Char) (i : Nat) : Bool :=
  ((text.drop i).take pat.length).map Char.toLower ==
    pat.map Char.toLower

/-- Modelled from the spec: the character before the match is absent or not
alphanumeric. -/
def boundaryBefore (text : List Char) (i : Nat) : Bool :=
  i == 0 || !(isWordChar (text.getD (i - 1) ' '))

/-- Modelled from the spec: the character after the match is absent or not
alphanumeric. -/
def boundaryAfter (text : List Char) (i len : Nat) : Bool :=
  decide (text.length ≤ i + len) || !(isWordChar (text.getD (i + len) ' '))

/-- Modelled from the spec: a word-boundary match of a nonempty alias at
offset i, requiring non-alphanumeric characters or the string start and
end on both sides, never substring containment alone. -/
def boundaryMatchAt (text pat : List Char) (i : Nat) : Bool :=
  !pat.isEmpty && matchesAt text pat i && boundaryBefore text i &&
    boundaryAfter text i pat.length

/-- Modelled from the spec: the smallest offset of a word-boundary match of
one alias, or none. -/
def firstOffsetOf (text pat : List Char) : Option Nat :=
  (List.range (text.length + 1)).find? (fun i => boundaryMatchAt text pat i)

/-- Modelled from the spec: the MentionDetector contract
`detect(responseText, entityNameAndAliases) -> (mentioned, firstOffset)`,
keeping the smallest offset among all matches of all aliases. -/
def detect (responseText : String) (names : List String) :
    Bool × Option Nat :=
  let text := responseText.toList
  let offsets := names.filterMap (fun n => firstOffsetOf text n.toList)
  match offsets with
  | [] => (false, none)
  | o :: os => (true, some (os.foldl Nat.min o))

/-- C5: the detector reports a mention only when some alias occurs with
non-alphanumeric characters or the string start and end on both sides, so
a name occurring only as a strict substring of a longer word is never a
mention; in particular "Notion" inside "notional" or "emotional" is not
detected, while a true word-boundary occurrence is. -/
theorem c5_mention_only_at_word_boundaries :
    (∀ (text : String) (names : List String),
      (detect text names).1 = true →
      ∃ n ∈ names, ∃ i, matchesAt text.toList n.toList i = true ∧
        boundaryBefore text.toList i = true ∧
        boundaryAfter text.toList i n.toList.length = true) ∧
    (detect "It sounds notional to me" ["Notion"]).1 = false ∧
    (detect "an emotional response" ["Notion"]).1 = false ∧
    (detect "Notion is the best tool for small teams" ["Notion"]).1
      = true := by
  refine ⟨?_, by decide, by decide, by decide⟩
  intro text names h
  simp only [detect] at h
  rcases hoff : names.filterMap
      (fun n => firstOffsetOf text.toList n.toList) with _ | ⟨o, os⟩
  · rw [hoff] at h
    simp at h
  · have ho : o ∈ names.filterMap
        (fun n => firstOffsetOf text.toList n.toList) := by
      rw [hoff]
      exact List.mem_cons_self _ _
    obtain ⟨n, hn, hfind⟩ := List.mem_filterMap.mp ho
    have hp : boundaryMatchAt text.toList n.toList o = true :=
      List.find?_some hfind
    simp only [boundaryMatchAt, Bool.and_eq_true] at hp
    exact ⟨n, hn, o, hp.1.1.2, hp.1.2, hp.2⟩

/-- Closed instance of the C5 theorem at the spec scenario text. -/
theorem c5_mention_only_at_word_boundaries_witness :
    ∃ n ∈ ["Notion"], ∃ i,
      matchesAt ("Notion is great").toList n.toList i = true ∧
      boundaryBefore ("Notion is great").toList i = true ∧
      boundaryAfter ("Notion is great").toList i n.toList.length = true :=
  c5_mention_only_at_word_boundaries.1 "Notion is great" ["Notion"]
    (by decide)

end GeoTrack
